import Mathlib

/-!
Verification model of `mkpins.c` (MKPINS pin-table code generator).

The program reads a CSV pin table and folds it into register-initializer
images for the NXP LPC17xx.  Registers are C `unsigned long`, 32-bit wide on
the program's target; we model register values as natural numbers that every
update reduces modulo 2^32 (`u32`).  A register family (`PINSEL[11]`,
`FIODIR[5]`, ...) is modeled as a total map `Nat → Nat` from sub-register
index to value; C globals are zero-initialized, matching the all-zero map.
Input lines and the strings stored in records are modeled as `List Char`.
-/

namespace Mkpins

/-- 32-bit truncation: arithmetic on the program's `unsigned long` registers. -/
def u32 (x : Nat) : Nat := x % 4294967296

/-- 32-bit complement, C `~x` on a 32-bit register operand. -/
def compl32 (x : Nat) : Nat := 4294967295 ^^^ u32 x

/-- Composite read-modify-write `r = (r & ~m) | v`: clear the bits of `m`,
then OR in `v`, on a 32-bit register. -/
def updM (m v r : Nat) : Nat := u32 ((r &&& compl32 m) ||| v)

/-- Point update of one sub-register inside a register family. -/
def pupd (idx : Nat) (f : Nat → Nat) (st : Nat → Nat) : Nat → Nat :=
  fun j => if j = idx then f (st j) else st j

/-- C `reg |= (1 << bit)` (mkpins.c:529, 588, 614). -/
def bitSet (b r : Nat) : Nat := u32 (r ||| u32 (1 <<< b))

/-- C `reg &= ~(1 << bit)` (mkpins.c:528, 589, 613, 638). -/
def bitClear (b r : Nat) : Nat := u32 (r &&& compl32 (1 <<< b))

/-- C `reg &= ~(0x03 << bit2); reg |= (v << bit2)` — the 2-bit field update of
`calc_PINSEL` (mkpins.c:556-557) and `calc_PINMODE` (mkpins.c:586-587).
Note that the source does NOT mask `v` to 2 bits before the OR. -/
def fieldUpd (s v r : Nat) : Nat := updM (3 <<< s) (u32 (v <<< s)) r

/-- Sub-register index and 2-bit shift computed by `calc_PINSEL`
(mkpins.c:549-555): `reg = port*2, bit2 = 2*bit` when `bit < 16`, else
`reg = 1 + port*2, bit2 = 2*(bit-16)`. -/
def selRegShift (port bit : Nat) : Nat × Nat :=
  if bit < 16 then (port * 2, 2 * bit) else (1 + port * 2, 2 * (bit - 16))

/-- Sub-register index and 2-bit shift computed by `calc_PINMODE`
(mkpins.c:579-585); the source duplicates the `calc_PINSEL` code textually. -/
def modeRegShift (port bit : Nat) : Nat × Nat :=
  if bit < 16 then (port * 2, 2 * bit) else (1 + port * 2, 2 * (bit - 16))

/-- C `struct tagPINDEF` (mkpins.c:62-77).  Numeric fields are C `int`s
holding parsed CSV values; every value arising in a run with defined C
behavior is nonnegative (negative ports/bits make the C shifts and array
indexing undefined), so they are modeled as `Nat`.  C's field name `def` is a
Lean keyword and is rendered `defv`. -/
structure PINDEF where
  seq : Nat
  pinnum : Nat
  port : Nat
  bit : Nat
  altfunc1 : List Char
  altfunc2 : List Char
  altfunc3 : List Char
  signame : List Char
  func : Nat
  inout : Nat
  mode : Nat
  odrain : Nat
  defv : Nat
  active : Nat
  deriving DecidableEq

/-- One iteration of the `calc_PINSEL` loop body (mkpins.c:545-558):
`PINSEL[reg] &= ~(0x03 << bit2); PINSEL[reg] |= (func << bit2);`. -/
def calc_PINSEL_step (st : Nat → Nat) (p : PINDEF) : Nat → Nat :=
  pupd (selRegShift p.port p.bit).1 (fieldUpd (selRegShift p.port p.bit).2 p.func) st

/-- `calc_PINSEL` (mkpins.c:541-559): fold the frozen pin table into
`PINSEL[]`, which `main` zeroed beforehand (mkpins.c:228-231). -/
def calc_PINSEL (t : List PINDEF) : Nat → Nat :=
  t.foldl calc_PINSEL_step (fun _ => 0)

/-- One iteration of the `calc_PINMODE` loop body (mkpins.c:574-590): the
2-bit `PINMODE` field update plus the `PINMODE_OD` single-bit update
(`odrain==1` sets the bit, `odrain==0` clears it, any other value is a no-op). -/
def calc_PINMODE_step (st : (Nat → Nat) × (Nat → Nat)) (p : PINDEF) :
    (Nat → Nat) × (Nat → Nat) :=
  (pupd (modeRegShift p.port p.bit).1 (fieldUpd (modeRegShift p.port p.bit).2 p.mode) st.1,
   if p.odrain = 1 then pupd p.port (bitSet p.bit) st.2
   else if p.odrain = 0 then pupd p.port (bitClear p.bit) st.2
   else st.2)

/-- `calc_PINMODE` (mkpins.c:570-591): fold the pin table into
`(PINMODE[], PINMODE_OD[])`, both zeroed by `main` (mkpins.c:221-231). -/
def calc_PINMODE (t : List PINDEF) : (Nat → Nat) × (Nat → Nat) :=
  t.foldl calc_PINMODE_step (fun _ => 0, fun _ => 0)

/-- One iteration of the `calc_FIODIR` loop body (mkpins.c:524-530):
`inout==1` (input) clears bit `bit` of `FIODIR[port]`, `inout==0` (output)
sets it, any other value (such as the 0xff default) leaves it alone. -/
def calc_FIODIR_step (st : Nat → Nat) (p : PINDEF) : Nat → Nat :=
  if p.inout = 1 then pupd p.port (bitClear p.bit) st
  else if p.inout = 0 then pupd p.port (bitSet p.bit) st
  else st

/-- `calc_FIODIR` (mkpins.c:521-531), starting from the all-zero `FIODIR[]`
initialized by `main` (mkpins.c:221-226). -/
def calc_FIODIR (t : List PINDEF) : Nat → Nat :=
  t.foldl calc_FIODIR_step (fun _ => 0)

/-- One iteration of the `calc_FIOPIN` loop body (mkpins.c:609-615):
`def==0` clears bit `bit` of `FIOPIN[port]`, `def==1` sets it. -/
def calc_FIOPIN_step (st : Nat → Nat) (p : PINDEF) : Nat → Nat :=
  if p.defv = 0 then pupd p.port (bitClear p.bit) st
  else if p.defv = 1 then pupd p.port (bitSet p.bit) st
  else st

/-- `calc_FIOPIN` (mkpins.c:606-616), starting from the all-zero `FIOPIN[]`. -/
def calc_FIOPIN (t : List PINDEF) : Nat → Nat :=
  t.foldl calc_FIOPIN_step (fun _ => 0)

/-- One iteration of the `calc_FIOMASK` loop body (mkpins.c:634-639):
pins with `func==0` get their bit cleared (unmasked). -/
def calc_FIOMASK_step (st : Nat → Nat) (p : PINDEF) : Nat → Nat :=
  if p.func = 0 then pupd p.port (bitClear p.bit) st
  else st

/-- `calc_FIOMASK` (mkpins.c:630-640): the function itself first sets
`FIOMASK[0..4]` to all-ones, then folds the table. -/
def calc_FIOMASK (t : List PINDEF) : Nat → Nat :=
  t.foldl calc_FIOMASK_step (fun j => if j < 5 then 4294967295 else 0)

/-- `print_PINSEL` (mkpins.c:561-567) emits one named `#define` constant per
sub-register, for sub-registers 0..10.  The emission is modeled as the list
of (sub-register index, value) pairs printed, in print order. -/
def print_PINSEL (sel : Nat → Nat) : List (Nat × Nat) :=
  (List.range 11).map (fun i => (i, sel i))

/-- `print_PINMODE` (mkpins.c:593-603): emits `PINMODE` constants for
sub-registers 0..9 (the loop bound is 10, mkpins.c:595) and `PINMODE_OD`
constants for sub-registers 0..4. -/
def print_PINMODE (md od : Nat → Nat) : List (Nat × Nat) × List (Nat × Nat) :=
  ((List.range 10).map (fun i => (i, md i)),
   (List.range 5).map (fun i => (i, od i)))

/-- `print_FIODIR` (mkpins.c:533-539): one constant per sub-register 0..4. -/
def print_FIODIR (d : Nat → Nat) : List (Nat × Nat) :=
  (List.range 5).map (fun i => (i, d i))

/-- `print_FIOPIN` (mkpins.c:618-624): one constant per sub-register 0..4. -/
def print_FIOPIN (d : Nat → Nat) : List (Nat × Nat) :=
  (List.range 5).map (fun i => (i, d i))

/-- `print_FIOMASK` (mkpins.c:642-648): one constant per sub-register 0..4. -/
def print_FIOMASK (d : Nat → Nat) : List (Nat × Nat) :=
  (List.range 5).map (fun i => (i, d i))

/-- C `isspace` on the characters relevant to `sscanf` whitespace skipping:
space (32) and the control characters 9..13. -/
def cIsSpace (c : Char) : Bool := c.toNat = 32 || (9 ≤ c.toNat && c.toNat ≤ 13)

/-- ASCII decimal digit test. -/
def cIsDigit (c : Char) : Bool := 48 ≤ c.toNat && c.toNat ≤ 57

/-- Value of a list of ASCII digits, most significant first. -/
def digitsVal (l : List Char) : Nat :=
  l.foldl (fun a c => a * 10 + (c.toNat - 48)) 0

/-- Scan a maximal nonempty run of leading digits; `none` when the first
character is not a digit (or the input is empty). -/
def scanDigits : List Char → Option Nat
  | [] => none
  | c :: r => if cIsDigit c then some (digitsVal ((c :: r).takeWhile cIsDigit)) else none

/-- Model of `1 == sscanf(field, "%d", &itemp)` (mkpins.c:298 etc.): skip
leading whitespace, accept an optional sign, then require at least one
digit.  Int overflow of the C `int` is not modeled (the claims never
exercise values near 2^31). -/
def scanInt (s : List Char) : Option Int :=
  match s.dropWhile cIsSpace with
  | '-' :: r => (scanDigits r).map (fun n => -(n : Int))
  | '+' :: r => (scanDigits r).map (fun n => (n : Int))
  | r => (scanDigits r).map (fun n => (n : Int))

/-- The per-field double-quote elimination of the copy loop
(mkpins.c:286-292): a quote at raw index 0 and a quote at raw index
`len-1` are dropped; everything else is copied. -/
def stripQuotes (f : List Char) : List Char :=
  let f1 := match f with
    | '\"' :: r => r
    | other => other
  if f1.getLast? = some '\"' then f1.dropLast else f1

/-- Advance of `beg` after a field (mkpins.c:343-344): skip the comma if the
field was terminated by one (`lp[beg+len] != '\0'`), else stay at the
terminator. -/
def nextBeg (line : List Char) (beg : Nat) : Nat :=
  let len := ((line.drop beg).takeWhile (fun c => c ≠ ',')).length
  if beg + len < line.length then beg + len + 1 else beg + len

/-- Start offset of field `i` of a line, under the same advance rule the
scanning loop uses. -/
def fieldStart (line : List Char) : Nat → Nat
  | 0 => 0
  | i + 1 => nextBeg line (fieldStart line i)

/-- Raw (unstripped) text of field `i`: the characters from the field start
up to the next comma or end of line (C `strcspn(lp+beg, ",")`,
mkpins.c:278). -/
def fieldRaw (line : List Char) (i : Nat) : List Char :=
  (line.drop (fieldStart line i)).takeWhile (fun c => c ≠ ',')

/-- The per-line locals of `main`'s scanning loop (mkpins.c:147-161) with
their reset values (mkpins.c:251-267): `func` and `inout` default to the
`NA` sentinel 0xff, `active` defaults to 1.  C `int`s, so `Int` here:
`sscanf` can legitimately produce negative values.  C's `def` is a Lean
keyword and is rendered `defv`. -/
structure ScanState where
  seq : Int
  pinnum : Int
  port : Int
  bit : Int
  altfunc1 : List Char
  altfunc2 : List Char
  altfunc3 : List Char
  signame : List Char
  func : Int
  inout : Int
  mode : Int
  odrain : Int
  defv : Int
  active : Int
  deriving DecidableEq

/-- Reset values assigned at the top of the line loop (mkpins.c:251-267). -/
def initScan : ScanState :=
  { seq := 0, pinnum := 0, port := 0, bit := 0,
    altfunc1 := [], altfunc2 := [], altfunc3 := [], signame := [],
    func := 255, inout := 255, mode := 0, odrain := 0, defv := 0, active := 1 }

/-- Outcome of the 14-field scanning loop: either `goto MYERROR` at field
`i` (mkpins.c:299,305,309,313), or fall out of the loop (normally or via
the "N/A" `break`, mkpins.c:303) with the accumulated locals. -/
inductive ScanOut where
  | fatal (i : Nat)
  | done (st : ScanState)
  deriving DecidableEq

/-- The field loop `for(i=0;i<14;i++)` of `main` (mkpins.c:276-345).  `fuel`
counts the remaining iterations (14 down to 0), `i` is the loop counter and
`beg` the current field offset.  Parsing of a field is attempted only when
the raw field length is nonzero (mkpins.c:295); fields 0..3 are
integer-mandatory (failure is fatal), field 1 first checks the "N/A" marker
and `break`s on a match, fields 4..7 are strings kept only when longer than
one character, and fields 8..13 parse best-effort, keeping the default on
failure. -/
def scanAux (line : List Char) : Nat → Nat → Nat → ScanState → ScanOut
  | 0, _, _, st => .done st
  | fuel + 1, i, beg, st =>
    let raw := (line.drop beg).takeWhile (fun c => c ≠ ',')
    let fld := stripQuotes raw
    let beg2 := nextBeg line beg
    if raw.length = 0 then scanAux line fuel (i + 1) beg2 st
    else
      match i with
      | 0 =>
        match scanInt fld with
        | some v => scanAux line fuel 1 beg2 { st with seq := v }
        | none => .fatal 0
      | 1 =>
        if fld.take 3 = ['N', '/', 'A'] then .done st
        else
          match scanInt fld with
          | some v => scanAux line fuel 2 beg2 { st with pinnum := v }
          | none => .fatal 1
      | 2 =>
        match scanInt fld with
        | some v => scanAux line fuel 3 beg2 { st with port := v }
        | none => .fatal 2
      | 3 =>
        match scanInt fld with
        | some v => scanAux line fuel 4 beg2 { st with bit := v }
        | none => .fatal 3
      | 4 => scanAux line fuel 5 beg2
          (if 1 < fld.length then { st with altfunc1 := fld } else st)
      | 5 => scanAux line fuel 6 beg2
          (if 1 < fld.length then { st with altfunc2 := fld } else st)
      | 6 => scanAux line fuel 7 beg2
          (if 1 < fld.length then { st with altfunc3 := fld } else st)
      | 7 => scanAux line fuel 8 beg2
          (if 1 < fld.length then { st with signame := fld } else st)
      | 8 => scanAux line fuel 9 beg2
          (match scanInt fld with | some v => { st with func := v } | none => st)
      | 9 => scanAux line fuel 10 beg2
          (match scanInt fld with | some v => { st with inout := v } | none => st)
      | 10 => scanAux line fuel 11 beg2
          (match scanInt fld with | some v => { st with mode := v } | none => st)
      | 11 => scanAux line fuel 12 beg2
          (match scanInt fld with | some v => { st with odrain := v } | none => st)
      | 12 => scanAux line fuel 13 beg2
          (match scanInt fld with | some v => { st with defv := v } | none => st)
      | _ => scanAux line fuel (i + 1) beg2
          (match scanInt fld with | some v => { st with active := v } | none => st)

/-- Scan the 14 fields of one data line. -/
def scanFields (line : List Char) : ScanOut := scanAux line 14 0 0 initScan

/-- Per-line outcome seen by the line loop: fatal parse error, silent skip,
or an accepted record. -/
inductive LineResult where
  | fatal (i : Nat)
  | skip
  | accept (st : ScanState)
  deriving DecidableEq

/-- The post-scan acceptance test (mkpins.c:347-348): a zero physical pin
(which includes the "N/A" `break` path, where `pinnum` is still 0) or an
empty signal name silently skips the line. -/
def parseLine (line : List Char) : LineResult :=
  match scanFields line with
  | .fatal i => .fatal i
  | .done st =>
    if st.pinnum = 0 then .skip
    else if st.signame = [] then .skip
    else .accept st

/-- Build the stored `PINDEF` from the scan locals (mkpins.c:351-364):
`seq` is the running count of accepted entries; the parsed field-0 value
`st.seq` is discarded.  `Int.toNat` renders the C `int` values; negative
values (which would be undefined in the downstream C register math) are not
exercised by any claim. -/
def toPindef (seqno : Nat) (st : ScanState) : PINDEF :=
  { seq := seqno, pinnum := st.pinnum.toNat, port := st.port.toNat,
    bit := st.bit.toNat,
    altfunc1 := st.altfunc1, altfunc2 := st.altfunc2, altfunc3 := st.altfunc3,
    signame := st.signame,
    func := st.func.toNat, inout := st.inout.toNat, mode := st.mode.toNat,
    odrain := st.odrain.toNat, defv := st.defv.toNat, active := st.active.toNat }

/-- `#define MAXPINS (256)` (mkpins.c:108). -/
def MAXPINS : Nat := 256

/-- The line loop of `main` (mkpins.c:246-374) on the data lines (the header
line was already consumed at mkpins.c:236).  Returns the pin table in input
order together with the process exit code: a line starting with "END" stops
input (mkpins.c:248); `goto MYERROR` sets exit code 99 and stops
(mkpins.c:404-413); an accepted entry is stored with `seq = seqno` and, when
the table reaches `MAXPINS`, the loop `break`s, ignoring all further lines
without error (mkpins.c:369-372). -/
def processLines : List (List Char) → Nat → List PINDEF × Nat
  | [], _ => ([], 0)
  | l :: rest, seqno =>
    if l.take 3 = ['E', 'N', 'D'] then ([], 0)
    else
      match parseLine l with
      | .fatal _ => ([], 99)
      | .skip => processLines rest seqno
      | .accept st =>
        let entry := toPindef seqno st
        if MAXPINS ≤ seqno + 1 then ([entry], 0)
        else
          let r := processLines rest (seqno + 1)
          (entry :: r.1, r.2)

/-! ### Concrete inputs used by counterexamples and witnesses -/

/-- A pin whose FUNC CSV column was blank: `func` holds the `NA` sentinel
0xff = 255 (mkpins.c:109,262), a table state the parser really produces. -/
def pinNA : PINDEF :=
  { seq := 0, pinnum := 46, port := 0, bit := 0,
    altfunc1 := [], altfunc2 := [], altfunc3 := [], signame := ['G'],
    func := 255, inout := 255, mode := 0, odrain := 0, defv := 0, active := 1 }

/-- A second pin on the same port, adjacent bit, with `func = 0`. -/
def pinB : PINDEF := { pinNA with bit := 1, func := 0, signame := ['H'] }

/-- Boundary pin port 0, bit 15 (with `func = 1`, `mode = 1`). -/
def pin15 : PINDEF := { pinNA with bit := 15, func := 1, mode := 1 }

/-- Boundary pin port 0, bit 16 (with `func = 1`, `mode = 1`). -/
def pin16 : PINDEF := { pinNA with bit := 16, func := 1, mode := 1 }

/-- Two well-formed pins (2-bit `func`/`mode`) on distinct (port, bit). -/
def pinC : PINDEF := { pinNA with func := 2, mode := 1, inout := 0 }

/-- See `pinC`. -/
def pinD : PINDEF :=
  { pinNA with port := 1, bit := 5, func := 3, mode := 2, inout := 1, signame := ['K'] }

/-- A pin whose IN/OUT CSV column was blank: `inout = 0xff` (mkpins.c:263). -/
def pinNoDir : PINDEF := { pinNA with bit := 3, func := 0 }

/-- A data line with empty port and bit fields that is nevertheless
accepted: physical pin 1, signal name "AB". -/
def lineOk : List Char := ",1,,,,,,AB".toList

/-- A data line whose port field (field 2) is empty while everything else is
in order; the scanner skips the empty field and accepts the line. -/
def lineEmptyPort : List Char := "1,1,,0,,,,AB,,,,,,\n".toList

/-- A data line whose port field (field 2) is present but not an integer. -/
def lineBadPort : List Char := "1,1,x,0,,,,AB,,,,,,\n".toList

/-- A blank data line: just the newline kept by `fgets`. -/
def lineBlank : List Char := "\n".toList

/-- An "N/A" physical-pin line. -/
def lineNA : List Char := "7,N/A,,,,,,,,,,,,\n".toList

/-- 256 copies of the accepted line `lineOk`: fills the pin table exactly
to `MAXPINS`. -/
def lines256 : List (List Char) := List.replicate 256 lineOk

/-!
## Theorems

First a toolkit for 32-bit register reasoning, then commutation lemmas for
the fold steps, then the claim theorems.
-/

theorem testBit_u32 (x i : Nat) :
    (u32 x).testBit i = (decide (i < 32) && x.testBit i) := by
  rw [u32, show (4294967296 : Nat) = 2 ^ 32 from by norm_num,
    Nat.testBit_mod_two_pow]

theorem testBit_allones (i : Nat) :
    Nat.testBit 4294967295 i = decide (i < 32) := by
  rw [show (4294967295 : Nat) = 2 ^ 32 - 1 from by norm_num,
    Nat.testBit_two_pow_sub_one]

theorem testBit_compl32 (x i : Nat) :
    (compl32 x).testBit i = (decide (i < 32) && !(x.testBit i)) := by
  rw [compl32]
  by_cases hi : i < 32 <;>
    simp [Nat.testBit_xor, testBit_allones, testBit_u32, hi]

theorem testBit_small {v k : Nat} (hv : v ≤ 3) (hk : 2 ≤ k) :
    v.testBit k = false :=
  Nat.testBit_lt_two_pow
    (lt_of_le_of_lt hv (lt_of_lt_of_le (by norm_num)
      (Nat.pow_le_pow_right (by norm_num) hk)))

theorem testBit_one_pos {k : Nat} (hk : 1 ≤ k) : Nat.testBit 1 k = false :=
  Nat.testBit_lt_two_pow
    (lt_of_lt_of_le (by norm_num) (Nat.pow_le_pow_right (by norm_num) hk))

theorem updM_comm {m1 v1 m2 v2 : Nat} (h1 : v1 &&& u32 m2 = 0)
    (h2 : v2 &&& u32 m1 = 0) (r : Nat) :
    updM m2 v2 (updM m1 v1 r) = updM m1 v1 (updM m2 v2 r) := by
  apply Nat.eq_of_testBit_eq
  intro i
  by_cases hi : i < 32
  · have h1i : (v1.testBit i && m2.testBit i) = false := by
      have := congrArg (fun n => Nat.testBit n i) h1
      simpa [Nat.testBit_land, testBit_u32, hi] using this
    have h2i : (v2.testBit i && m1.testBit i) = false := by
      have := congrArg (fun n => Nat.testBit n i) h2
      simpa [Nat.testBit_land, testBit_u32, hi] using this
    simp only [updM, testBit_u32, Nat.testBit_lor, Nat.testBit_land,
      testBit_compl32, hi]
    cases hr : r.testBit i <;> cases hm1 : m1.testBit i <;>
      cases hv1 : v1.testBit i <;> cases hm2 : m2.testBit i <;>
      cases hv2 : v2.testBit i <;> simp_all
  · simp [updM, testBit_u32, hi]

theorem pupd_pupd_ne {i1 i2 : Nat} (h : i1 ≠ i2) (f g : Nat → Nat)
    (st : Nat → Nat) : pupd i2 g (pupd i1 f st) = pupd i1 f (pupd i2 g st) := by
  funext j
  simp only [pupd]
  by_cases h1 : j = i1
  · by_cases h2 : j = i2
    · exact absurd (h1.symm.trans h2) h
    · simp [h1, h2, h, Ne.symm h]
  · by_cases h2 : j = i2 <;> simp [h1, h2, h, Ne.symm h]

theorem pupd_pupd_eq {i0 : Nat} (f g : Nat → Nat)
    (hfg : ∀ x, g (f x) = f (g x)) (st : Nat → Nat) :
    pupd i0 g (pupd i0 f st) = pupd i0 f (pupd i0 g st) := by
  funext j
  simp only [pupd]
  by_cases h : j = i0 <;> simp [h, hfg]

theorem land_shift_fields {va : Nat} (hva : va ≤ 3) {a b : Nat} (hab : a ≠ b) :
    u32 (va <<< (2 * a)) &&& u32 (3 <<< (2 * b)) = 0 := by
  apply Nat.eq_of_testBit_eq
  intro i
  rw [Nat.testBit_land, Nat.zero_testBit]
  cases hA : (u32 (va <<< (2 * a))).testBit i
  · simp
  · rw [Bool.true_and]
    simp only [testBit_u32, Nat.testBit_shiftLeft, Bool.and_eq_true,
      decide_eq_true_eq] at hA
    obtain ⟨hi, hge, hbit⟩ := hA
    have hlt : i - 2 * a < 2 := by
      by_contra hc
      rw [testBit_small hva (Nat.le_of_not_lt hc)] at hbit
      exact Bool.false_ne_true hbit
    rw [testBit_u32, Nat.testBit_shiftLeft]
    by_cases hgb : 2 * b ≤ i
    · have h2 : 2 ≤ i - 2 * b := by omega
      simp [testBit_small (le_refl 3) h2]
    · simp [hgb]

theorem land_shift_bits {b1 b2 : Nat} (hb : b1 ≠ b2) :
    u32 (1 <<< b1) &&& u32 (1 <<< b2) = 0 := by
  apply Nat.eq_of_testBit_eq
  intro i
  rw [Nat.testBit_land, Nat.zero_testBit]
  cases hA : (u32 (1 <<< b1)).testBit i
  · simp
  · rw [Bool.true_and]
    simp only [testBit_u32, Nat.testBit_shiftLeft, Bool.and_eq_true,
      decide_eq_true_eq] at hA
    obtain ⟨hi, hge, hbit⟩ := hA
    have h1 : i - b1 = 0 := by
      by_contra hc
      rw [testBit_one_pos (Nat.one_le_iff_ne_zero.mpr hc)] at hbit
      exact Bool.false_ne_true hbit
    rw [testBit_u32, Nat.testBit_shiftLeft]
    by_cases hgb : b2 ≤ i
    · have h2 : 1 ≤ i - b2 := by omega
      simp [testBit_one_pos h2]
    · simp [hgb]

theorem bitSet_eq_updM (b r : Nat) : bitSet b r = updM 0 (u32 (1 <<< b)) r := by
  apply Nat.eq_of_testBit_eq
  intro i
  by_cases hi : i < 32 <;>
    simp [bitSet, updM, testBit_u32, Nat.testBit_lor, Nat.testBit_land,
      testBit_compl32, hi]

theorem bitClear_eq_updM (b r : Nat) : bitClear b r = updM (1 <<< b) 0 r := by
  simp [bitClear, updM, Nat.or_zero]

theorem bitop_comm {b1 b2 : Nat} (hb : b1 ≠ b2) {f g : Nat → Nat}
    (hf : f = bitSet b1 ∨ f = bitClear b1)
    (hg : g = bitSet b2 ∨ g = bitClear b2) :
    ∀ r, g (f r) = f (g r) := by
  rcases hf with rfl | rfl <;> rcases hg with rfl | rfl <;> intro r <;>
    simp only [funext (bitSet_eq_updM b1), funext (bitSet_eq_updM b2),
      funext (bitClear_eq_updM b1), funext (bitClear_eq_updM b2)] <;>
    apply updM_comm <;>
    first
      | exact land_shift_bits hb
      | exact land_shift_bits (Ne.symm hb)
      | simp [u32]

theorem fieldUpd_comm {a b va vb : Nat} (hab : a ≠ b) (hva : va ≤ 3)
    (hvb : vb ≤ 3) (r : Nat) :
    fieldUpd (2 * b) vb (fieldUpd (2 * a) va r) =
      fieldUpd (2 * a) va (fieldUpd (2 * b) vb r) := by
  unfold fieldUpd
  exact updM_comm (land_shift_fields hva hab)
    (land_shift_fields hvb (Ne.symm hab)) r

theorem pbit_pupd_comm {pport pbit qport qbit : Nat}
    (hpq : (pport, pbit) ≠ (qport, qbit)) {f g : Nat → Nat}
    (hf : f = bitSet pbit ∨ f = bitClear pbit)
    (hg : g = bitSet qbit ∨ g = bitClear qbit) (st : Nat → Nat) :
    pupd qport g (pupd pport f st) = pupd pport f (pupd qport g st) := by
  by_cases hport : pport = qport
  · subst hport
    have hbit : pbit ≠ qbit := fun hbb => hpq (by rw [hbb])
    exact pupd_pupd_eq f g (bitop_comm hbit hf hg) st
  · exact pupd_pupd_ne hport f g st

theorem selRegShift_cases {pp pb qp qb : Nat} (h : (pp, pb) ≠ (qp, qb)) :
    (selRegShift pp pb).1 ≠ (selRegShift qp qb).1 ∨
    ((selRegShift pp pb).1 = (selRegShift qp qb).1 ∧
      ∃ a b, a ≠ b ∧ (selRegShift pp pb).2 = 2 * a ∧
        (selRegShift qp qb).2 = 2 * b) := by
  by_cases hP : pp = qp
  · subst hP
    have hb : pb ≠ qb := fun hbb => h (by rw [hbb])
    by_cases h1 : pb < 16 <;> by_cases h2 : qb < 16
    · exact Or.inr ⟨by simp [selRegShift, h1, h2], pb, qb, hb,
        by simp [selRegShift, h1], by simp [selRegShift, h2]⟩
    · refine Or.inl ?_
      simp [selRegShift, h1, h2]
    · refine Or.inl ?_
      simp [selRegShift, h1, h2]
    · exact Or.inr ⟨by simp [selRegShift, h1, h2], pb - 16, qb - 16,
        by omega, by simp [selRegShift, h1], by simp [selRegShift, h2]⟩
  · refine Or.inl ?_
    by_cases h1 : pb < 16 <;> by_cases h2 : qb < 16 <;>
      simp [selRegShift, h1, h2] <;> omega

theorem modeRegShift_eq_sel (port bit : Nat) :
    modeRegShift port bit = selRegShift port bit := rfl

theorem sel_step_comm {p q : PINDEF} (hpq : (p.port, p.bit) ≠ (q.port, q.bit))
    (hp : p.func ≤ 3) (hq : q.func ≤ 3) (st : Nat → Nat) :
    calc_PINSEL_step (calc_PINSEL_step st p) q =
      calc_PINSEL_step (calc_PINSEL_step st q) p := by
  unfold calc_PINSEL_step
  rcases selRegShift_cases hpq with hne | ⟨heq, a, b, hab, ha, hb⟩
  · exact pupd_pupd_ne hne _ _ st
  · rw [heq, ha, hb]
    exact pupd_pupd_eq _ _ (fun x => fieldUpd_comm hab hp hq x) st

theorem optstep_comm {pport pbit qport qbit : Nat}
    (hpq : (pport, pbit) ≠ (qport, qbit)) {F G : (Nat → Nat) → (Nat → Nat)}
    (hF : F = id ∨ ∃ f, (f = bitSet pbit ∨ f = bitClear pbit) ∧ F = pupd pport f)
    (hG : G = id ∨ ∃ g, (g = bitSet qbit ∨ g = bitClear qbit) ∧ G = pupd qport g)
    (st : Nat → Nat) : G (F st) = F (G st) := by
  rcases hF with rfl | ⟨f, hf, rfl⟩
  · rcases hG with rfl | ⟨g, hg, rfl⟩ <;> rfl
  · rcases hG with rfl | ⟨g, hg, rfl⟩
    · rfl
    · exact pbit_pupd_comm hpq hf hg st

theorem od_classify (p : PINDEF) :
    (fun od => if p.odrain = 1 then pupd p.port (bitSet p.bit) od
      else if p.odrain = 0 then pupd p.port (bitClear p.bit) od else od) = id ∨
    ∃ f, (f = bitSet p.bit ∨ f = bitClear p.bit) ∧
      (fun od => if p.odrain = 1 then pupd p.port (bitSet p.bit) od
        else if p.odrain = 0 then pupd p.port (bitClear p.bit) od else od) =
        pupd p.port f := by
  by_cases h1 : p.odrain = 1
  · exact Or.inr ⟨bitSet p.bit, Or.inl rfl, by funext od; simp [h1]⟩
  · by_cases h0 : p.odrain = 0
    · exact Or.inr ⟨bitClear p.bit, Or.inr rfl, by funext od; simp [h1, h0]⟩
    · exact Or.inl (by funext od; simp [h1, h0])

theorem mode_step_comm {p q : PINDEF} (hpq : (p.port, p.bit) ≠ (q.port, q.bit))
    (hp : p.mode ≤ 3) (hq : q.mode ≤ 3) (st : (Nat → Nat) × (Nat → Nat)) :
    calc_PINMODE_step (calc_PINMODE_step st p) q =
      calc_PINMODE_step (calc_PINMODE_step st q) p := by
  unfold calc_PINMODE_step
  simp only [modeRegShift_eq_sel, Prod.mk.injEq]
  constructor
  · rcases selRegShift_cases hpq with hne | ⟨heq, a, b, hab, ha, hb⟩
    · exact pupd_pupd_ne hne _ _ st.1
    · rw [heq, ha, hb]
      exact pupd_pupd_eq _ _ (fun x => fieldUpd_comm hab hp hq x) st.1
  · exact optstep_comm hpq (od_classify p) (od_classify q) st.2

theorem fiodir_classify (p : PINDEF) :
    (fun st => calc_FIODIR_step st p) = id ∨
    ∃ f, (f = bitSet p.bit ∨ f = bitClear p.bit) ∧
      (fun st => calc_FIODIR_step st p) = pupd p.port f := by
  unfold calc_FIODIR_step
  by_cases h1 : p.inout = 1
  · exact Or.inr ⟨bitClear p.bit, Or.inr rfl, by funext st; simp [h1]⟩
  · by_cases h0 : p.inout = 0
    · exact Or.inr ⟨bitSet p.bit, Or.inl rfl, by funext st; simp [h1, h0]⟩
    · exact Or.inl (by funext st; simp [h1, h0])

theorem fiodir_step_comm {p q : PINDEF}
    (hpq : (p.port, p.bit) ≠ (q.port, q.bit)) (st : Nat → Nat) :
    calc_FIODIR_step (calc_FIODIR_step st p) q =
      calc_FIODIR_step (calc_FIODIR_step st q) p :=
  optstep_comm hpq (fiodir_classify p) (fiodir_classify q) st

theorem fiopin_classify (p : PINDEF) :
    (fun st => calc_FIOPIN_step st p) = id ∨
    ∃ f, (f = bitSet p.bit ∨ f = bitClear p.bit) ∧
      (fun st => calc_FIOPIN_step st p) = pupd p.port f := by
  unfold calc_FIOPIN_step
  by_cases h0 : p.defv = 0
  · exact Or.inr ⟨bitClear p.bit, Or.inr rfl, by funext st; simp [h0]⟩
  · by_cases h1 : p.defv = 1
    · exact Or.inr ⟨bitSet p.bit, Or.inl rfl, by funext st; simp [h0, h1]⟩
    · exact Or.inl (by funext st; simp [h0, h1])

theorem fiopin_step_comm {p q : PINDEF}
    (hpq : (p.port, p.bit) ≠ (q.port, q.bit)) (st : Nat → Nat) :
    calc_FIOPIN_step (calc_FIOPIN_step st p) q =
      calc_FIOPIN_step (calc_FIOPIN_step st q) p :=
  optstep_comm hpq (fiopin_classify p) (fiopin_classify q) st

theorem fiomask_classify (p : PINDEF) :
    (fun st => calc_FIOMASK_step st p) = id ∨
    ∃ f, (f = bitSet p.bit ∨ f = bitClear p.bit) ∧
      (fun st => calc_FIOMASK_step st p) = pupd p.port f := by
  unfold calc_FIOMASK_step
  by_cases h0 : p.func = 0
  · exact Or.inr ⟨bitClear p.bit, Or.inr rfl, by funext st; simp [h0]⟩
  · exact Or.inl (by funext st; simp [h0])

theorem fiomask_step_comm {p q : PINDEF}
    (hpq : (p.port, p.bit) ≠ (q.port, q.bit)) (st : Nat → Nat) :
    calc_FIOMASK_step (calc_FIOMASK_step st p) q =
      calc_FIOMASK_step (calc_FIOMASK_step st q) p :=
  optstep_comm hpq (fiomask_classify p) (fiomask_classify q) st

/-- C1, counterexample.  The claim says `function_select` is masked to 2
bits before the OR, so a pin never sets bits outside its own 2-bit field.
`calc_PINSEL` does not mask (mkpins.c:557): the pin `pinNA` (blank FUNC
column, so `func` = the 0xff `NA` sentinel) at port 0, bit 0 owns only
bits 0-1 of sub-register 0, yet sets bit 2. -/
theorem c1_counterexample :
    selRegShift pinNA.port pinNA.bit = (0, 0) ∧
    (calc_PINSEL [pinNA] 0).testBit 2 = true := by
  exact ⟨by decide, by decide⟩

/-- C1, amended: the fold first clears the 2-bit field at the computed
shift and then ORs in `function_select` UNMASKED; provided the pin's
`function_select` already fits in 2 bits (≤ 3) and its bit index is in
range, the pin writes exactly its 2-bit value into its own field (first
conjunct: the old field content is gone, replaced by the bits of `func`)
and sets no bits outside that field (second conjunct: any bit set after the
step was either already set or lies inside the pin's 2-bit field). -/
theorem calc_PINSEL_step_self (st : Nat → Nat) (p : PINDEF) :
    calc_PINSEL_step st p ((selRegShift p.port p.bit).1) =
      fieldUpd (selRegShift p.port p.bit).2 p.func
        (st ((selRegShift p.port p.bit).1)) := by
  simp [calc_PINSEL_step, pupd]

theorem c1_amended (st : Nat → Nat) (p : PINDEF) (hbit : p.bit < 32)
    (hfunc : p.func ≤ 3) :
    (∀ k, k < 2 →
      (calc_PINSEL_step st p ((selRegShift p.port p.bit).1)).testBit
        ((selRegShift p.port p.bit).2 + k) = p.func.testBit k) ∧
    (∀ j i, (calc_PINSEL_step st p j).testBit i = true →
      (st j).testBit i = true ∨
      (j = (selRegShift p.port p.bit).1 ∧
        (selRegShift p.port p.bit).2 ≤ i ∧
        i < (selRegShift p.port p.bit).2 + 2)) := by
  have hs30 : (selRegShift p.port p.bit).2 ≤ 30 := by
    unfold selRegShift
    by_cases h1 : p.bit < 16 <;> simp [h1] <;> omega
  constructor
  · intro k hk
    have hsk : (selRegShift p.port p.bit).2 + k < 32 := by omega
    have h3 : Nat.testBit 3 k = true := by interval_cases k <;> decide
    rw [calc_PINSEL_step_self]
    simp only [fieldUpd, updM, testBit_u32, Nat.testBit_lor,
      Nat.testBit_land, testBit_compl32, Nat.testBit_shiftLeft]
    simp [hsk, h3, Nat.le_add_right, Nat.add_sub_cancel_left]
  · intro j i htb
    by_cases hj : j = (selRegShift p.port p.bit).1
    · subst hj
      rw [calc_PINSEL_step_self] at htb
      simp only [fieldUpd, updM, testBit_u32, Nat.testBit_lor,
        Nat.testBit_land, testBit_compl32, Nat.testBit_shiftLeft,
        Bool.and_eq_true, Bool.or_eq_true, decide_eq_true_eq] at htb
      obtain ⟨hi32, hcases⟩ := htb
      rcases hcases with ⟨hst, _⟩ | ⟨_, hge, hfbit⟩
      · exact Or.inl hst
      · refine Or.inr ⟨rfl, hge, ?_⟩
        have hlt : i - (selRegShift p.port p.bit).2 < 2 := by
          by_contra hc
          rw [testBit_small hfunc (Nat.le_of_not_lt hc)] at hfbit
          exact Bool.false_ne_true hfbit
        omega
    · simp only [calc_PINSEL_step, pupd, if_neg hj] at htb
      exact Or.inl htb

/-- C1, witness for the amended theorem at `pinC` (`func = 2`, port 0,
bit 0) from the all-zero register file. -/
theorem c1_witness :
    (calc_PINSEL_step (fun _ => 0) pinC ((selRegShift pinC.port pinC.bit).1)).testBit
      ((selRegShift pinC.port pinC.bit).2 + 1) = pinC.func.testBit 1 :=
  (c1_amended (fun _ => 0) pinC (by decide) (by decide)).1 1 (by decide)

/-- C2, counterexample.  Two pins with pairwise-distinct (port, bit) —
`pinNA` with the parser-produced 0xff `func` sentinel at (0,0) and `pinB`
with `func = 0` at (0,1) — give different `PINSEL0` images under the two
orders (0xf3 versus 0xff), because the unmasked OR of 0xff spills into the
neighbouring field, so the folds are not order-independent as claimed. -/
theorem c2_counterexample :
    [pinNA, pinB].Pairwise (fun p q => (p.port, p.bit) ≠ (q.port, q.bit)) ∧
    [pinNA, pinB].Perm [pinB, pinNA] ∧
    calc_PINSEL [pinNA, pinB] 0 ≠ calc_PINSEL [pinB, pinNA] 0 :=
  ⟨by decide, List.Perm.swap pinB pinNA [], by decide⟩

/-- C2, amended: for every Pin Table with pairwise-distinct (port, bit)
pairs whose `func` and `mode` values all fit in 2 bits (≤ 3, which rules
out the unset 0xff sentinel), every permutation of the table yields
identical final register images in all families.  Running a fold twice
over the identical table trivially yields the identical image, since each
fold is a pure function of the table (the `t2 = t1` instance via the
reflexive permutation). -/
theorem c2_amended (t1 t2 : List PINDEF)
    (hpw : t1.Pairwise (fun p q => (p.port, p.bit) ≠ (q.port, q.bit)))
    (hfm : ∀ p ∈ t1, p.func ≤ 3 ∧ p.mode ≤ 3)
    (hperm : t1.Perm t2) :
    calc_PINSEL t1 = calc_PINSEL t2 ∧ calc_PINMODE t1 = calc_PINMODE t2 ∧
    calc_FIODIR t1 = calc_FIODIR t2 ∧ calc_FIOPIN t1 = calc_FIOPIN t2 ∧
    calc_FIOMASK t1 = calc_FIOMASK t2 := by
  have hsym : Symmetric (fun p q : PINDEF => (p.port, p.bit) ≠ (q.port, q.bit)) :=
    fun x y hxy => Ne.symm hxy
  have hF := hpw.forall hsym
  refine ⟨?_, ?_, ?_, ?_, ?_⟩
  · exact hperm.foldl_eq' (fun x hx y hy z => by
      by_cases hxy : x = y
      · rw [hxy]
      · exact sel_step_comm (hF hx hy hxy) (hfm x hx).1 (hfm y hy).1 z) _
  · exact hperm.foldl_eq' (fun x hx y hy z => by
      by_cases hxy : x = y
      · rw [hxy]
      · exact mode_step_comm (hF hx hy hxy) (hfm x hx).2 (hfm y hy).2 z) _
  · exact hperm.foldl_eq' (fun x hx y hy z => by
      by_cases hxy : x = y
      · rw [hxy]
      · exact fiodir_step_comm (hF hx hy hxy) z) _
  · exact hperm.foldl_eq' (fun x hx y hy z => by
      by_cases hxy : x = y
      · rw [hxy]
      · exact fiopin_step_comm (hF hx hy hxy) z) _
  · exact hperm.foldl_eq' (fun x hx y hy z => by
      by_cases hxy : x = y
      · rw [hxy]
      · exact fiomask_step_comm (hF hx hy hxy) z) _

/-- C2, witness for the amended theorem: the two-pin table `[pinC, pinD]`
(distinct (port, bit), 2-bit `func`/`mode`) and its transposition. -/
theorem c2_witness :
    calc_PINSEL [pinC, pinD] = calc_PINSEL [pinD, pinC] ∧
    calc_PINMODE [pinC, pinD] = calc_PINMODE [pinD, pinC] ∧
    calc_FIODIR [pinC, pinD] = calc_FIODIR [pinD, pinC] ∧
    calc_FIOPIN [pinC, pinD] = calc_FIOPIN [pinD, pinC] ∧
    calc_FIOMASK [pinC, pinD] = calc_FIOMASK [pinD, pinC] :=
  c2_amended [pinC, pinD] [pinD, pinC] (by decide) (by decide)
    (List.Perm.swap pinD pinC [])

/-- C3, confirmed: a pin at port 0, bit 15 is addressed at sub-register 0,
shift 30, and a pin at port 0, bit 16 at sub-register 1, shift 0, by the
addressing rule of `calc_PINSEL` and by the (textually duplicated) rule of
`calc_PINMODE` alike; concretely, folding the single boundary pins `pin15`
and `pin16` (`func = mode = 1`) puts the value 2^30 in sub-register 0
resp. 1 in sub-register 1 of both families.  The last conjunct checks the
two addressing rules agree everywhere. -/
theorem c3_boundary_split :
    selRegShift 0 15 = (0, 30) ∧ modeRegShift 0 15 = (0, 30) ∧
    selRegShift 0 16 = (1, 0) ∧ modeRegShift 0 16 = (1, 0) ∧
    calc_PINSEL [pin15] 0 = 1073741824 ∧
    (calc_PINMODE [pin15]).1 0 = 1073741824 ∧
    calc_PINSEL [pin16] 1 = 1 ∧ (calc_PINMODE [pin16]).1 1 = 1 ∧
    ∀ port bit, selRegShift port bit = modeRegShift port bit :=
  ⟨by decide, by decide, by decide, by decide, by decide, by decide,
    by decide, by decide, fun _ _ => rfl⟩

/-- C5, counterexample.  The claim says the emitter writes 11 constants for
the mode family (PINMODE0..PINMODE10); `print_PINMODE` loops `i < 10`
(mkpins.c:595) and emits only 10. -/
theorem c5_counterexample :
    (print_PINMODE (fun _ => 0) (fun _ => 0)).1.length = 10 ∧
    (print_PINMODE (fun _ => 0) (fun _ => 0)).1.length ≠ 11 :=
  ⟨by decide, by decide⟩

/-- C5, amended: the emitter writes exactly one named initializer constant
per sub-register per family — 11 for the function-select family
(PINSEL0..PINSEL10), 10 for the mode family (PINMODE0..PINMODE9), and 5
each for the mode-open-drain, direction, default-state and mask families
(indices enumerated exactly once, in order). -/
theorem c5_amended (sel md od dir pin mask : Nat → Nat) :
    (print_PINSEL sel).map Prod.fst = List.range 11 ∧
    (print_PINMODE md od).1.map Prod.fst = List.range 10 ∧
    (print_PINMODE md od).2.map Prod.fst = List.range 5 ∧
    (print_FIODIR dir).map Prod.fst = List.range 5 ∧
    (print_FIOPIN pin).map Prod.fst = List.range 5 ∧
    (print_FIOMASK mask).map Prod.fst = List.range 5 := by
  refine ⟨?_, ?_, ?_, ?_, ?_, ?_⟩ <;>
    simp [print_PINSEL, print_PINMODE, print_FIODIR, print_FIOPIN,
      print_FIOMASK, List.map_map, Function.comp_def]

/-- Helper for C9: if no pin of the table with the given (port, bit) has
`inout = 0` (the only value that sets a direction bit), a clear direction
bit stays clear through the whole fold. -/
theorem fiodir_no_set (t : List PINDEF) (port bit : Nat) :
    ∀ st : Nat → Nat, (∀ q ∈ t, q.port = port → q.bit = bit → q.inout ≠ 0) →
    (st port).testBit bit = false →
    ((t.foldl calc_FIODIR_step st) port).testBit bit = false := by
  induction t with
  | nil => exact fun st _ h0 => h0
  | cons q tl ih =>
    intro st hq h0
    refine ih _ (fun r hr => hq r (List.mem_cons_of_mem q hr)) ?_
    have honebit : (u32 (1 <<< q.bit)).testBit bit = false ∨ q.bit = bit := by
      by_cases hqb : q.bit = bit
      · exact Or.inr hqb
      · refine Or.inl ?_
        rw [testBit_u32, Nat.testBit_shiftLeft]
        by_cases hle : q.bit ≤ bit
        · have h1b : 1 ≤ bit - q.bit := by omega
          simp [testBit_one_pos h1b]
        · simp [hle]
    unfold calc_FIODIR_step
    by_cases h1 : q.inout = 1
    · by_cases hp : port = q.port
      · simp only [h1, if_true, pupd, hp]
        simp [bitClear, testBit_u32, Nat.testBit_land, hp ▸ h0]
      · simp [h1, pupd, Ne.symm hp, hp, h0]
    · by_cases h02 : q.inout = 0
      · by_cases hp : port = q.port
        · have hqb : q.bit ≠ bit :=
            fun hb => hq q (List.mem_cons_self q tl) hp.symm hb h02
          rcases honebit with hob | hob
          · simp only [h1, h02, if_true, if_false]
            simp [pupd, hp, bitSet, testBit_u32, Nat.testBit_lor,
              hp ▸ h0, hob]
          · exact absurd hob hqb
        · simp [h1, h02, pupd, Ne.symm hp, hp, h0]
      · simp [h1, h02, h0]

/-- C9, confirmed: a pin whose direction column was blank or unparsable
carries the `inout = 0xff` sentinel, which is neither 0 (output) nor 1
(input); its own fold step is the identity (first conjunct), and since
`FIODIR` starts all-zero, its bit stays 0 — i.e. reads back as "input" —
unless some pin with the same port and bit has `inout = 0` and sets it
(second conjunct, under the hypothesis that no such setter exists). -/
theorem c9_default_direction (t : List PINDEF) (p : PINDEF)
    (_hmem : p ∈ t) (h0 : p.inout ≠ 0) (h1 : p.inout ≠ 1)
    (hnoset : ∀ q ∈ t, q.port = p.port → q.bit = p.bit → q.inout ≠ 0) :
    (∀ st, calc_FIODIR_step st p = st) ∧
    (calc_FIODIR t p.port).testBit p.bit = false := by
  constructor
  · intro st
    unfold calc_FIODIR_step
    simp [h0, h1]
  · exact fiodir_no_set t p.port p.bit _ hnoset (by simp)

/-- C9, witness: the single-pin table `[pinNoDir]` (blank IN/OUT column,
`inout = 0xff`): its direction bit reads 0. -/
theorem c9_witness :
    (calc_FIODIR [pinNoDir] pinNoDir.port).testBit pinNoDir.bit = false :=
  (c9_default_direction [pinNoDir] pinNoDir (by decide) (by decide)
    (by decide) (by decide)).2

/-- C10, confirmed: a data line consisting only of a newline is not
skipped: its field 0 is the nonempty string "\n", which fails the integer
scan, so the scan aborts fatally at field 0 and the program exits with
code 99, producing no pin entry. -/
theorem c10_blank_line_fatal :
    fieldRaw lineBlank 0 = ['\n'] ∧
    scanInt (stripQuotes (fieldRaw lineBlank 0)) = none ∧
    parseLine lineBlank = .fatal 0 ∧
    processLines [lineBlank] 0 = ([], 99) :=
  ⟨by decide, by decide, by decide, by decide⟩

/-- C6, confirmed: any non-"END" data line whose scan completes (normally
or via the "N/A" `break`) with physical pin 0 or an empty signal name is
silently dropped: `parseLine` yields `skip`, so processing the remaining
input is unchanged — no pin entry is appended, no exit-code change (no
error), and since the per-pin declarations (mkpins.c:366-367) are emitted
exactly when an entry is appended, no declaration is emitted for the line
in either output artifact. -/
theorem c6_skip_line (line : List Char) (rest : List (List Char)) (s : Nat)
    (st : ScanState) (hEnd : line.take 3 ≠ ['E', 'N', 'D'])
    (hscan : scanFields line = .done st)
    (hskip : st.pinnum = 0 ∨ st.signame = []) :
    parseLine line = .skip ∧
    processLines (line :: rest) s = processLines rest s := by
  have hpl : parseLine line = .skip := by
    unfold parseLine
    rw [hscan]
    rcases hskip with h | h
    · simp [h]
    · by_cases hp : st.pinnum = 0 <;> simp [hp, h]
  exact ⟨hpl, by simp [processLines, hEnd, hpl]⟩

/-- C6, witness: the "N/A" line `lineNA` (scan breaks at field 1 leaving
`pinnum = 0`) is dropped. -/
theorem c6_witness :
    processLines [lineNA] 0 = processLines [] 0 :=
  (c6_skip_line lineNA [] 0 { initScan with seq := 7 } (by decide)
    (by decide) (Or.inl (by decide))).2

/-- Helper for C7: the accepted entries of `processLines lines s` carry the
consecutive sequence numbers `s, s+1, ...`. -/
theorem processLines_seqs (lines : List (List Char)) :
    ∀ s, ((processLines lines s).1).map PINDEF.seq =
      List.range' s ((processLines lines s).1).length := by
  induction lines with
  | nil => intro s; simp [processLines]
  | cons l rest ih =>
    intro s
    by_cases hEnd : l.take 3 = ['E', 'N', 'D']
    · simp [processLines, hEnd]
    · cases hpl : parseLine l with
      | fatal i => simp [processLines, hEnd, hpl]
      | skip => simpa [processLines, hEnd, hpl] using ih s
      | accept st =>
        by_cases hmax : MAXPINS ≤ s + 1
        · simp [processLines, hEnd, hpl, hmax, toPindef, List.range'_succ]
        · simp [processLines, hEnd, hpl, hmax, toPindef, ih (s + 1),
            List.range'_succ]

/-- C7, confirmed: after input consumption the accepted table carries the
sequence values 0, 1, ..., k-1 in input order — the list of stored `seq`
fields is exactly `range k` for every input whatsoever, hence independent
of the input's own item/seq column (field 0 is scanned into `ScanState.seq`
and discarded by `toPindef`, which overwrites `seq` with the running
count). -/
theorem c7_sequence_dense (lines : List (List Char)) :
    ((processLines lines 0).1).map PINDEF.seq =
      List.range ((processLines lines 0).1).length := by
  rw [List.range_eq_range']
  exact processLines_seqs lines 0

/-- Helper for C8: the table never outgrows `MAXPINS`. -/
theorem processLines_length_le (lines : List (List Char)) :
    ∀ s, s < MAXPINS → ((processLines lines s).1).length ≤ MAXPINS - s := by
  induction lines with
  | nil => intro s _; simp [processLines]
  | cons l rest ih =>
    intro s hs
    by_cases hEnd : l.take 3 = ['E', 'N', 'D']
    · simp [processLines, hEnd]
    · cases hpl : parseLine l with
      | fatal i => simp [processLines, hEnd, hpl]
      | skip =>
        have := ih s hs
        simpa [processLines, hEnd, hpl] using this
      | accept st =>
        by_cases hmax : MAXPINS ≤ s + 1
        · simp [processLines, hEnd, hpl, hmax]
          omega
        · have := ih (s + 1) (by omega)
          simp [processLines, hEnd, hpl, hmax]
          omega

/-- Helper for C8: when the suffix starting at count `s` fills the table to
capacity, any lines appended after it are never consumed, and the run ends
without error. -/
theorem processLines_full_stops (rest : List (List Char)) :
    ∀ (lines : List (List Char)) (s : Nat), s < MAXPINS →
    MAXPINS - s ≤ ((processLines lines s).1).length →
    processLines (lines ++ rest) s = processLines lines s ∧
      (processLines lines s).2 = 0 := by
  intro lines
  induction lines with
  | nil =>
    intro s hs hlen
    exfalso
    simp [processLines] at hlen
    omega
  | cons l tl ih =>
    intro s hs hlen
    by_cases hEnd : l.take 3 = ['E', 'N', 'D']
    · exfalso
      simp [processLines, hEnd] at hlen
      omega
    · cases hpl : parseLine l with
      | fatal i =>
        exfalso
        simp [processLines, hEnd, hpl] at hlen
        omega
      | skip =>
        have hrec := ih s hs (by simpa [processLines, hEnd, hpl] using hlen)
        constructor
        · have : processLines ((l :: tl) ++ rest) s =
              processLines (tl ++ rest) s := by
            simp [processLines, hEnd, hpl]
          rw [this, hrec.1]
          simp [processLines, hEnd, hpl]
        · simpa [processLines, hEnd, hpl] using hrec.2
      | accept st =>
        by_cases hmax : MAXPINS ≤ s + 1
        · constructor
          · simp [processLines, hEnd, hpl, hmax]
          · simp [processLines, hEnd, hpl, hmax]
        · have hlen2 : MAXPINS - (s + 1) ≤
              ((processLines tl (s + 1)).1).length := by
            have hshape : (processLines (l :: tl) s).1 =
                toPindef s st :: (processLines tl (s + 1)).1 := by
              simp [processLines, hEnd, hpl, hmax]
            rw [hshape] at hlen
            simp at hlen
            omega
          have hrec := ih (s + 1) (by omega) hlen2
          constructor
          · have h1 : processLines ((l :: tl) ++ rest) s =
                (toPindef s st :: (processLines (tl ++ rest) (s + 1)).1,
                  (processLines (tl ++ rest) (s + 1)).2) := by
              simp [processLines, hEnd, hpl, hmax]
            have h2 : processLines (l :: tl) s =
                (toPindef s st :: (processLines tl (s + 1)).1,
                  (processLines tl (s + 1)).2) := by
              simp [processLines, hEnd, hpl, hmax]
            rw [h1, h2, hrec.1]
          · simpa [processLines, hEnd, hpl, hmax] using hrec.2

/-- C8, confirmed: the pin table holds at most 256 entries, and once the
256th entry is accepted all subsequent input lines are ignored — appending
any `rest` after an input that fills the table changes nothing — with exit
code 0 (no error). -/
theorem c8_capacity (lines rest : List (List Char)) :
    ((processLines lines 0).1).length ≤ 256 ∧
    (((processLines lines 0).1).length = 256 →
      processLines (lines ++ rest) 0 = processLines lines 0 ∧
      (processLines lines 0).2 = 0) := by
  constructor
  · simpa [MAXPINS] using processLines_length_le lines 0 (by norm_num [MAXPINS])
  · intro hfull
    exact processLines_full_stops rest lines 0 (by norm_num [MAXPINS])
      (by simp [MAXPINS, hfull])

set_option maxRecDepth 100000 in
/-- C8, witness: 256 copies of the accepted line `lineOk` fill the table;
one more copy appended afterwards is ignored and the run is error-free. -/
theorem c8_witness :
    processLines (lines256 ++ [lineOk]) 0 = processLines lines256 0 ∧
    (processLines lines256 0).2 = 0 :=
  (c8_capacity lines256 [lineOk]).2 (by decide)

/-- Scanning step: an empty raw field is not parsed; move to the next
field (mkpins.c:295 gate). -/
theorem scanAux_empty (line : List Char) (fuel i beg : Nat) (st : ScanState)
    (h : (line.drop beg).takeWhile (fun c => c ≠ ',') = []) :
    scanAux line (fuel + 1) i beg st =
      scanAux line fuel (i + 1) (nextBeg line beg) st := by
  simp only [scanAux]
  rw [h]
  rfl

/-- Scanning step: field 0 parses as an integer. -/
theorem scanAux_f0_some (line : List Char) (fuel beg : Nat) (st : ScanState)
    (v : Int) (hne : (line.drop beg).takeWhile (fun c => c ≠ ',') ≠ [])
    (hv : scanInt (stripQuotes ((line.drop beg).takeWhile (fun c => c ≠ ','))) =
      some v) :
    scanAux line (fuel + 1) 0 beg st =
      scanAux line fuel 1 (nextBeg line beg) { st with seq := v } := by
  have hlen : ¬(((line.drop beg).takeWhile (fun c => c ≠ ',')).length = 0) :=
    fun hc => hne (List.length_eq_zero.mp hc)
  simp only [scanAux]
  rw [if_neg hlen, hv]

/-- Scanning step: field 1 is not "N/A" and parses as an integer. -/
theorem scanAux_f1_some (line : List Char) (fuel beg : Nat) (st : ScanState)
    (v : Int) (hne : (line.drop beg).takeWhile (fun c => c ≠ ',') ≠ [])
    (hna : (stripQuotes ((line.drop beg).takeWhile (fun c => c ≠ ','))).take 3 ≠
      ['N', '/', 'A'])
    (hv : scanInt (stripQuotes ((line.drop beg).takeWhile (fun c => c ≠ ','))) =
      some v) :
    scanAux line (fuel + 1) 1 beg st =
      scanAux line fuel 2 (nextBeg line beg) { st with pinnum := v } := by
  have hlen : ¬(((line.drop beg).takeWhile (fun c => c ≠ ',')).length = 0) :=
    fun hc => hne (List.length_eq_zero.mp hc)
  simp only [scanAux]
  rw [if_neg hlen, if_neg hna, hv]

/-- Scanning step: a nonempty field 2 that fails the integer scan is fatal
(`goto MYERROR`, mkpins.c:309). -/
theorem scanAux_f2_fatal (line : List Char) (fuel beg : Nat) (st : ScanState)
    (hne : (line.drop beg).takeWhile (fun c => c ≠ ',') ≠ [])
    (hv : scanInt (stripQuotes ((line.drop beg).takeWhile (fun c => c ≠ ','))) =
      none) :
    scanAux line (fuel + 1) 2 beg st = .fatal 2 := by
  have hlen : ¬(((line.drop beg).takeWhile (fun c => c ≠ ',')).length = 0) :=
    fun hc => hne (List.length_eq_zero.mp hc)
  simp only [scanAux]
  rw [if_neg hlen, hv]

/-- Scanning step: field 2 parses as an integer. -/
theorem scanAux_f2_some (line : List Char) (fuel beg : Nat) (st : ScanState)
    (v : Int) (hne : (line.drop beg).takeWhile (fun c => c ≠ ',') ≠ [])
    (hv : scanInt (stripQuotes ((line.drop beg).takeWhile (fun c => c ≠ ','))) =
      some v) :
    scanAux line (fuel + 1) 2 beg st =
      scanAux line fuel 3 (nextBeg line beg) { st with port := v } := by
  have hlen : ¬(((line.drop beg).takeWhile (fun c => c ≠ ',')).length = 0) :=
    fun hc => hne (List.length_eq_zero.mp hc)
  simp only [scanAux]
  rw [if_neg hlen, hv]

/-- Scanning step: a nonempty field 3 that fails the integer scan is fatal
(`goto MYERROR`, mkpins.c:313). -/
theorem scanAux_f3_fatal (line : List Char) (fuel beg : Nat) (st : ScanState)
    (hne : (line.drop beg).takeWhile (fun c => c ≠ ',') ≠ [])
    (hv : scanInt (stripQuotes ((line.drop beg).takeWhile (fun c => c ≠ ','))) =
      none) :
    scanAux line (fuel + 1) 3 beg st = .fatal 3 := by
  have hlen : ¬(((line.drop beg).takeWhile (fun c => c ≠ ',')).length = 0) :=
    fun hc => hne (List.length_eq_zero.mp hc)
  simp only [scanAux]
  rw [if_neg hlen, hv]

/-- C4, counterexample.  The line `lineEmptyPort` has an EMPTY port field
(field 2), whose text certainly does not parse as an integer — yet the
scanner never attempts the parse (the `len != 0` gate, mkpins.c:295), the
run is not fatal (exit code 0, not 99) and a pin entry IS produced from the
line (with `port` silently defaulted to 0). -/
theorem c4_counterexample :
    fieldRaw lineEmptyPort 2 = [] ∧
    scanInt (stripQuotes (fieldRaw lineEmptyPort 2)) = none ∧
    (processLines [lineEmptyPort] 0).2 = 0 ∧
    ((processLines [lineEmptyPort] 0).1).length = 1 :=
  ⟨by decide, by decide, by decide, by decide⟩

/-- C4, amended: for every processed data line that reaches field scanning
(fields 0 and 1 empty or successfully parsed, field 1 not "N/A"), if field
2 (port) or field 3 (bit) is NONEMPTY and its quote-stripped content fails
to parse as an integer, the run is fatal: the scan aborts at that field,
and the program exits with code 99, producing no pin entry from that line
(an entirely empty field 2 or 3 is skipped instead, silently keeping the
default 0). -/
theorem c4_amended (line : List Char) (rest : List (List Char)) (s : Nat)
    (hEnd : line.take 3 ≠ ['E', 'N', 'D'])
    (h0 : fieldRaw line 0 = [] ∨
      (scanInt (stripQuotes (fieldRaw line 0))).isSome = true)
    (h1 : fieldRaw line 1 = [] ∨
      ((stripQuotes (fieldRaw line 1)).take 3 ≠ ['N', '/', 'A'] ∧
        (scanInt (stripQuotes (fieldRaw line 1))).isSome = true))
    (h23 : (fieldRaw line 2 ≠ [] ∧ scanInt (stripQuotes (fieldRaw line 2)) = none) ∨
      ((fieldRaw line 2 = [] ∨
          (scanInt (stripQuotes (fieldRaw line 2))).isSome = true) ∧
        fieldRaw line 3 ≠ [] ∧ scanInt (stripQuotes (fieldRaw line 3)) = none)) :
    (parseLine line = .fatal 2 ∨ parseLine line = .fatal 3) ∧
    processLines (line :: rest) s = ([], 99) := by
  have hemptyscan : scanInt (stripQuotes ([] : List Char)) = none := by decide
  have h2 : ∀ (fuel : Nat) (st : ScanState),
      scanAux line (fuel + 2) 2 (nextBeg line (nextBeg line 0)) st = .fatal 2 ∨
      scanAux line (fuel + 2) 2 (nextBeg line (nextBeg line 0)) st = .fatal 3 := by
    intro fuel st
    have b2 := nextBeg line (nextBeg line 0)
    rcases h23 with ⟨hne2, hn2⟩ | ⟨h2pass, hne3, hn3⟩
    · have hne2b : (line.drop (nextBeg line (nextBeg line 0))).takeWhile
          (fun c => c ≠ ',') ≠ [] := hne2
      have hn2b : scanInt (stripQuotes ((line.drop
          (nextBeg line (nextBeg line 0))).takeWhile (fun c => c ≠ ','))) =
          none := hn2
      exact Or.inl (scanAux_f2_fatal line (fuel + 1)
        (nextBeg line (nextBeg line 0)) st hne2b hn2b)
    · right
      have hne3b : (line.drop (nextBeg line (nextBeg line
          (nextBeg line 0)))).takeWhile (fun c => c ≠ ',') ≠ [] := hne3
      have hn3b : scanInt (stripQuotes ((line.drop (nextBeg line (nextBeg line
          (nextBeg line 0)))).takeWhile (fun c => c ≠ ','))) = none := hn3
      rcases h2pass with h2e | h2s
      · have h2eb : (line.drop (nextBeg line (nextBeg line 0))).takeWhile
            (fun c => c ≠ ',') = [] := h2e
        rw [scanAux_empty line (fuel + 1) 2 (nextBeg line (nextBeg line 0))
          st h2eb]
        exact scanAux_f3_fatal line fuel
          (nextBeg line (nextBeg line (nextBeg line 0))) st hne3b hn3b
      · obtain ⟨v, hv⟩ := Option.isSome_iff_exists.mp h2s
        have hne2 : fieldRaw line 2 ≠ [] := by
          intro he
          rw [he, hemptyscan] at hv
          exact Option.noConfusion hv
        have hne2b : (line.drop (nextBeg line (nextBeg line 0))).takeWhile
            (fun c => c ≠ ',') ≠ [] := hne2
        have hvb : scanInt (stripQuotes ((line.drop
            (nextBeg line (nextBeg line 0))).takeWhile (fun c => c ≠ ','))) =
            some v := hv
        rw [scanAux_f2_some line (fuel + 1) (nextBeg line (nextBeg line 0))
          st v hne2b hvb]
        exact scanAux_f3_fatal line fuel
          (nextBeg line (nextBeg line (nextBeg line 0))) _ hne3b hn3b
  have h1to : ∀ (fuel : Nat) (st : ScanState),
      scanAux line (fuel + 3) 1 (nextBeg line 0) st = .fatal 2 ∨
      scanAux line (fuel + 3) 1 (nextBeg line 0) st = .fatal 3 := by
    intro fuel st
    rcases h1 with h1e | ⟨hna, h1s⟩
    · have h1eb : (line.drop (nextBeg line 0)).takeWhile
          (fun c => c ≠ ',') = [] := h1e
      rw [scanAux_empty line (fuel + 2) 1 (nextBeg line 0) st h1eb]
      exact h2 fuel st
    · obtain ⟨v, hv⟩ := Option.isSome_iff_exists.mp h1s
      have hne1 : fieldRaw line 1 ≠ [] := by
        intro he
        rw [he, hemptyscan] at hv
        exact Option.noConfusion hv
      have hne1b : (line.drop (nextBeg line 0)).takeWhile
          (fun c => c ≠ ',') ≠ [] := hne1
      have hnab : (stripQuotes ((line.drop (nextBeg line 0)).takeWhile
          (fun c => c ≠ ','))).take 3 ≠ ['N', '/', 'A'] := hna
      have hvb : scanInt (stripQuotes ((line.drop (nextBeg line 0)).takeWhile
          (fun c => c ≠ ','))) = some v := hv
      rw [scanAux_f1_some line (fuel + 2) (nextBeg line 0) st v hne1b hnab hvb]
      exact h2 fuel _
  have h0to : scanFields line = .fatal 2 ∨ scanFields line = .fatal 3 := by
    show scanAux line 14 0 0 initScan = .fatal 2 ∨
      scanAux line 14 0 0 initScan = .fatal 3
    rcases h0 with h0e | h0s
    · have h0eb : (line.drop 0).takeWhile (fun c => c ≠ ',') = [] := h0e
      have e := scanAux_empty line 13 0 0 initScan h0eb
      rw [show (13 + 1 : Nat) = 14 from rfl] at e
      rw [e]
      exact h1to 10 initScan
    · obtain ⟨v, hv⟩ := Option.isSome_iff_exists.mp h0s
      have hne0 : fieldRaw line 0 ≠ [] := by
        intro he
        rw [he, hemptyscan] at hv
        exact Option.noConfusion hv
      have hne0b : (line.drop 0).takeWhile (fun c => c ≠ ',') ≠ [] := hne0
      have hvb : scanInt (stripQuotes ((line.drop 0).takeWhile
          (fun c => c ≠ ','))) = some v := hv
      have e := scanAux_f0_some line 13 0 initScan v hne0b hvb
      rw [show (13 + 1 : Nat) = 14 from rfl] at e
      rw [e]
      exact h1to 10 _
  have hpl : parseLine line = .fatal 2 ∨ parseLine line = .fatal 3 := by
    unfold parseLine
    rcases h0to with h | h <;> rw [h]
    · exact Or.inl rfl
    · exact Or.inr rfl
  refine ⟨hpl, ?_⟩
  rcases hpl with h | h <;> simp [processLines, hEnd, h]

/-- C4, witness: the line `lineBadPort` with port field "x". -/
theorem c4_witness :
    (parseLine lineBadPort = .fatal 2 ∨ parseLine lineBadPort = .fatal 3) ∧
    processLines [lineBadPort] 0 = ([], 99) :=
  c4_amended lineBadPort [] 0 (by decide) (by decide) (by decide) (by decide)

end Mkpins
